import Mathlib

/-!
# Block scheduling of `main.c` (rad2_cplx_fft)

Shallow embedding of the block-partitioning part of `main` in `src/main.c`
(lines 36-74): the loop over the full blocks of `BLOCK_SIZE` samples and the
handling of the remaining samples, whose transform length is found by the
power-of-four search loop.

* `UWORD32` values are natural numbers; every arithmetic result that the C
  code stores in a `UWORD32` is reduced modulo `2 ^ 32`.
* `FLOAT32` values are elements of an arbitrary type `α` with a chosen
  element `zero` (what `calloc` writes); no arithmetic is done on them here.
* The FFT routine `impeghd_rad2_cplx_fft` lives in `fft.h`, outside the
  source file; it is a parameter. It receives the start index of the slices
  it is pointed at, the length, and the three buffers, and returns the
  buffers after the call.
* Both loops take a fuel argument and return `none` when it runs out.
* `BLOCK_SIZE` is a preprocessor constant; the loops take the block size as
  an argument and `main_run` instantiates it with `BLOCK_SIZE`.
-/

namespace Rad2CplxFft

/-- The constant `#define BLOCK_SIZE 1024`. -/
def BLOCK_SIZE : Nat := 1024

/-- Number of `FLOAT32` slots of `ptr_scratch`: `malloc(sizeof(FLOAT32) * (4 * 1024))`. -/
def SCRATCH_SLOTS : Nat := 4 * 1024

/-- Number of values of a `UWORD32`. -/
def UWORD32_MOD : Nat := 2 ^ 32

/-- Reduction of an arithmetic result to `UWORD32`. -/
def wrap32 (x : Nat) : Nat := x % UWORD32_MOD

/-- Subtraction of two `UWORD32` values. -/
def sub32 (a b : Nat) : Nat := (a + UWORD32_MOD - b) % UWORD32_MOD

/-- The three heap buffers of `main`. -/
structure Buffers (α : Type) where
  ptr_real : List α
  ptr_imag : List α
  ptr_scratch : List α

/-- The FFT routine: start index of the slices handed over, length, buffers before,
buffers after. -/
abbrev Kernel (α : Type) := Nat → Nat → Buffers α → Buffers α

/-- State of a run: the buffers and the calls `(start_index, length)` of the FFT
routine issued so far, oldest first. -/
structure RunState (α : Type) where
  mem : Buffers α
  calls : List (Nat × Nat)

/-- One call `impeghd_rad2_cplx_fft(&ptr_real[start], &ptr_imag[start], len, ptr_scratch)`. -/
def invoke {α : Type} (fft : Kernel α) (start len : Nat) (st : RunState α) : RunState α :=
  { mem := fft start len st.mem, calls := st.calls ++ [(start, len)] }

/-- The loop `for (UWORD32 i = 0; i < num_of_iterations; i++)` of lines 41-52, entered
with loop counter `i`. -/
def fullBlockLoop {α : Type} (fft : Kernel α) (block_size num_samples num_of_iterations : Nat) :
    Nat → Nat → RunState α → Option (RunState α)
  | 0, _, _ => none
  | fuel + 1, i, st =>
    if i < num_of_iterations then
      let start_index := wrap32 (i * block_size)
      let end_index := wrap32 ((i + 1) * block_size)
      if end_index > num_samples then some st
      else
        fullBlockLoop fft block_size num_samples num_of_iterations fuel (wrap32 (i + 1))
          (invoke fft start_index block_size st)
    else some st

/-- The loop `while (power_of_4 * 4 <= remaining_samples) power_of_4 *= 4;` of lines 64-66,
entered with the given value of `power_of_4`; the result is the value it leaves. -/
def powerOf4Loop (remaining_samples : Nat) : Nat → Nat → Option Nat
  | 0, _ => none
  | fuel + 1, power_of_4 =>
    if wrap32 (power_of_4 * 4) ≤ remaining_samples then
      powerOf4Loop remaining_samples fuel (wrap32 (power_of_4 * 4))
    else some power_of_4

/-- The same loop of lines 64-66, recording the value of `power_of_4` at each evaluation of
the loop condition, in order. The loop body runs once for each recorded value but the last,
and each evaluation of the condition computes `power_of_4 * 4` for the value recorded. -/
def powerOf4Values (remaining_samples : Nat) : Nat → Nat → Option (List Nat)
  | 0, _ => none
  | fuel + 1, power_of_4 =>
    if wrap32 (power_of_4 * 4) ≤ remaining_samples then
      (powerOf4Values remaining_samples fuel (wrap32 (power_of_4 * 4))).map
        (fun vs => power_of_4 :: vs)
    else some [power_of_4]

/-- Lines 58-74: the handling of the samples left over after the full blocks. -/
def remainderBlock {α : Type} (fft : Kernel α) (block_size num_samples fuel : Nat)
    (st : RunState α) : Option (RunState α) :=
  let remaining_samples := num_samples % block_size
  if remaining_samples > 0 then
    let start_index := sub32 num_samples remaining_samples
    match powerOf4Loop remaining_samples fuel 1 with
    | none => none
    | some power_of_4 => some (invoke fft start_index power_of_4 st)
  else some st

/-- Buffers of `main` before the first block: `ptr_real` as filled by `read_wav`,
`ptr_imag` from `calloc`, `ptr_scratch` from `malloc` with indeterminate contents `junk`. -/
def initBuffers {α : Type} (zero : α) (junk : Nat → α) (num_samples : Nat) (samples : List α) :
    Buffers α :=
  { ptr_real := samples
    ptr_imag := List.replicate num_samples zero
    ptr_scratch := (List.range SCRATCH_SLOTS).map junk }

/-- State of the run before the first block: the initial buffers, no call issued. -/
def initState {α : Type} (zero : α) (junk : Nat → α) (num_samples : Nat) (samples : List α) :
    RunState α :=
  { mem := initBuffers zero junk num_samples samples, calls := [] }

/-- Lines 36-74 of `main` with the block size as an argument. The only block size `main.c`
has is `BLOCK_SIZE`; at `block_size = 0` the C code would divide by zero, which this
definition does not model. -/
def schedule {α : Type} (fft : Kernel α) (block_size fuel : Nat) (zero : α) (junk : Nat → α)
    (num_samples : Nat) (samples : List α) : Option (RunState α) :=
  let st0 : RunState α := initState zero junk num_samples samples
  let num_of_iterations := num_samples / block_size
  match fullBlockLoop fft block_size num_samples num_of_iterations fuel 0 st0 with
  | none => none
  | some st1 => remainderBlock fft block_size num_samples fuel st1

/-- Lines 36-74 of `main`. -/
def main_run {α : Type} (fft : Kernel α) (fuel : Nat) (zero : α) (junk : Nat → α)
    (num_samples : Nat) (samples : List α) : Option (RunState α) :=
  schedule fft BLOCK_SIZE fuel zero junk num_samples samples

/-! ## Auxiliary definitions used to state the results -/

/-- The state after issuing the calls `cs` one after the other. -/
def replay {α : Type} (fft : Kernel α) (cs : List (Nat × Nat)) (st : RunState α) : RunState α :=
  cs.foldl (fun s c => invoke fft c.1 c.2 s) st

/-- The buffers after issuing the calls `cs` one after the other. -/
def replayMem {α : Type} (fft : Kernel α) (cs : List (Nat × Nat)) (m : Buffers α) : Buffers α :=
  cs.foldl (fun b c => fft c.1 c.2 b) m

/-- The window `[start, start + len)` of a buffer. -/
def slice {α : Type} (l : List α) (start len : Nat) : List α := (l.drop start).take len

/-- The calls of the full blocks: block `i` starts at `i * block_size`. -/
def fullCalls (block_size n : Nat) : List (Nat × Nat) :=
  (List.range n).map (fun i => (i * block_size, block_size))

/-- The call for the remaining samples, if there is one. -/
def remCalls (block_size num_samples : Nat) : List (Nat × Nat) :=
  if num_samples % block_size = 0 then []
  else [(num_samples - num_samples % block_size, 4 ^ Nat.log 4 (num_samples % block_size))]

/-- Frame condition on the FFT routine: a call writes no entry of `ptr_real` or `ptr_imag`
outside the window `[start, start + len)` it is handed. -/
def WritesOnlyWindow {α : Type} (fft : Kernel α) : Prop :=
  ∀ (start len : Nat) (m : Buffers α) (j : Nat), (j < start ∨ start + len ≤ j) →
    (fft start len m).ptr_real[j]? = m.ptr_real[j]? ∧
    (fft start len m).ptr_imag[j]? = m.ptr_imag[j]?

/-- The FFT routine computes the function `K` of the length and of the two slices it is
handed: after a call the two windows hold `K len re im`, whatever the scratch area held. -/
def ComputesSlice {α : Type} (fft : Kernel α)
    (K : Nat → List α → List α → List α × List α) : Prop :=
  ∀ (start len : Nat) (m : Buffers α),
    slice (fft start len m).ptr_real start len
      = (K len (slice m.ptr_real start len) (slice m.ptr_imag start len)).1 ∧
    slice (fft start len m).ptr_imag start len
      = (K len (slice m.ptr_real start len) (slice m.ptr_imag start len)).2

/-- Applies `f` to the entries of the window `[start, start + len)` of a buffer and leaves
the other entries as they are. -/
def onWindow (f : Int → Int) (start len : Nat) (l : List Int) : List Int :=
  l.mapIdx (fun j x => if start ≤ j ∧ j < start + len then f x else x)

/-- A stand-in for the FFT routine on integer buffers, used for concrete runs: it adds one
to the real window, subtracts one from the imaginary window and clears the scratch area. -/
def sampleKernel : Kernel Int := fun start len m =>
  { ptr_real := onWindow (fun x => x + 1) start len m.ptr_real
    ptr_imag := onWindow (fun x => x - 1) start len m.ptr_imag
    ptr_scratch := m.ptr_scratch.map (fun _ => 0) }

/-- What `sampleKernel` does to the slices it is handed, as a function of these slices. -/
def sampleSliceFn : Nat → List Int → List Int → List Int × List Int :=
  fun _ re im => (re.map (fun x => x + 1), im.map (fun x => x - 1))

/-! ## The run in closed form -/

theorem initState_calls {α : Type} (zero : α) (junk : Nat → α) (N : Nat) (samples : List α) :
    (initState zero junk N samples).calls = [] := rfl

theorem initState_mem {α : Type} (zero : α) (junk : Nat → α) (N : Nat) (samples : List α) :
    (initState zero junk N samples).mem = initBuffers zero junk N samples := rfl

theorem replay_nil {α : Type} (fft : Kernel α) (st : RunState α) : replay fft [] st = st := rfl

theorem replay_cons {α : Type} (fft : Kernel α) (c : Nat × Nat) (cs : List (Nat × Nat))
    (st : RunState α) : replay fft (c :: cs) st = replay fft cs (invoke fft c.1 c.2 st) := rfl

theorem replay_append {α : Type} (fft : Kernel α) (cs ds : List (Nat × Nat)) (st : RunState α) :
    replay fft (cs ++ ds) st = replay fft ds (replay fft cs st) := by
  simp [replay, List.foldl_append]

theorem replay_calls {α : Type} (fft : Kernel α) (cs : List (Nat × Nat)) (st : RunState α) :
    (replay fft cs st).calls = st.calls ++ cs := by
  induction cs generalizing st with
  | nil => simp [replay]
  | cons c cs ih => rw [replay_cons, ih]; simp [invoke]

theorem replay_mem {α : Type} (fft : Kernel α) (cs : List (Nat × Nat)) (st : RunState α) :
    (replay fft cs st).mem = replayMem fft cs st.mem := by
  induction cs generalizing st with
  | nil => simp [replay, replayMem]
  | cons c cs ih => rw [replay_cons, ih]; simp [invoke, replayMem]

theorem wrap32_of_lt {x : Nat} (h : x < 2 ^ 32) : wrap32 x = x := by
  unfold wrap32 UWORD32_MOD
  exact Nat.mod_eq_of_lt h

theorem sub32_of_le {a b : Nat} (hb : b ≤ a) (ha : a < 2 ^ 32) : sub32 a b = a - b := by
  unfold sub32 UWORD32_MOD
  have h : a + 2 ^ 32 - b = (a - b) + 2 ^ 32 := by omega
  rw [h, Nat.add_mod_right]
  exact Nat.mod_eq_of_lt (by omega)

theorem fullBlockLoop_from {α : Type} (fft : Kernel α) (B N : Nat) (hN : N < 2 ^ 32) :
    ∀ (d i fuel : Nat) (st : RunState α), i + d = N / B → d < fuel →
      fullBlockLoop fft B N (N / B) fuel i st
        = some (replay fft ((List.range d).map (fun k => ((i + k) * B, B))) st) := by
  intro d
  induction d with
  | zero =>
    intro i fuel st hi hf
    obtain ⟨f, rfl⟩ : ∃ f, fuel = f + 1 := ⟨fuel - 1, by omega⟩
    have hlt : ¬ i < N / B := by omega
    simp [fullBlockLoop, hlt, replay]
  | succ d ih =>
    intro i fuel st hi hf
    obtain ⟨f, rfl⟩ : ∃ f, fuel = f + 1 := ⟨fuel - 1, by omega⟩
    have hlt : i < N / B := by omega
    have hle : (i + 1) * B ≤ N :=
      Nat.le_trans (Nat.mul_le_mul_right B hlt) (Nat.div_mul_le_self N B)
    have hle0 : i * B ≤ (i + 1) * B := Nat.mul_le_mul_right B (Nat.le_succ i)
    have hQ : N / B ≤ N := Nat.div_le_self N B
    have h1 : wrap32 ((i + 1) * B) = (i + 1) * B := wrap32_of_lt (by omega)
    have h0 : wrap32 (i * B) = i * B := wrap32_of_lt (by omega)
    have h2 : wrap32 (i + 1) = i + 1 := wrap32_of_lt (by omega)
    have hnot : ¬ (i + 1) * B > N := by omega
    rw [fullBlockLoop]
    simp only [hlt, if_true, h1, h0, h2, hnot, if_false]
    rw [ih (i + 1) f (invoke fft (i * B) B st) (by omega) (by omega)]
    rw [List.range_succ_eq_map, List.map_cons, List.map_map, replay_cons]
    simp only [Nat.add_zero]
    congr 3
    funext k
    simp [Function.comp, Nat.add_assoc, Nat.add_comm 1 k]

theorem fullBlockLoop_eq {α : Type} (fft : Kernel α) (B N fuel : Nat) (hN : N < 2 ^ 32)
    (hf : N / B < fuel) (st : RunState α) :
    fullBlockLoop fft B N (N / B) fuel 0 st = some (replay fft (fullCalls B (N / B)) st) := by
  rw [fullBlockLoop_from fft B N hN (N / B) 0 fuel st (by omega) hf]
  simp [fullCalls]

theorem powerOf4Loop_from (R : Nat) (hR : R < 2 ^ 30) :
    ∀ (fuel k : Nat), 4 ^ k ≤ R → R < 4 ^ (k + fuel) →
      ∃ m, powerOf4Loop R fuel (4 ^ k) = some (4 ^ m) ∧ 4 ^ m ≤ R ∧ R < 4 ^ (m + 1) := by
  intro fuel
  induction fuel with
  | zero =>
    intro k hk hlt
    simp only [Nat.add_zero] at hlt
    omega
  | succ f ih =>
    intro k hk hlt
    have hpow : 4 ^ (k + 1) = 4 ^ k * 4 := Nat.pow_succ 4 k
    have hw : wrap32 (4 ^ k * 4) = 4 ^ k * 4 := wrap32_of_lt (by omega)
    rw [powerOf4Loop, hw]
    by_cases hc : 4 ^ k * 4 ≤ R
    · simp only [hc, if_true]
      rw [← hpow]
      exact ih (k + 1) (by omega) (by rw [Nat.add_right_comm]; exact hlt)
    · simp only [hc, if_false]
      exact ⟨k, rfl, hk, by omega⟩

theorem powerOf4Loop_eq (R fuel : Nat) (hR0 : 0 < R) (hR : R < 2 ^ 30) (hf : R < 4 ^ fuel) :
    powerOf4Loop R fuel 1 = some (4 ^ Nat.log 4 R) := by
  obtain ⟨m, hm, hle, hlt⟩ := powerOf4Loop_from R hR fuel 0 (by simpa using hR0) (by simpa using hf)
  rw [Nat.log_eq_of_pow_le_of_lt_pow hle hlt]
  simpa using hm

theorem remainderBlock_eq {α : Type} (fft : Kernel α) (B N fuel : Nat) (hBpos : 0 < B)
    (hB : B ≤ 2 ^ 30) (hN : N < 2 ^ 32) (hf : B ≤ 4 ^ fuel) (st : RunState α) :
    remainderBlock fft B N fuel st = some (replay fft (remCalls B N) st) := by
  unfold remainderBlock remCalls
  by_cases h0 : N % B = 0
  · simp [h0, replay]
  · have hpos : 0 < N % B := Nat.pos_of_ne_zero h0
    have hlt : N % B < B := Nat.mod_lt N hBpos
    have hle : N % B ≤ N := Nat.mod_le N B
    simp only [gt_iff_lt, hpos, if_true, h0, if_false]
    rw [powerOf4Loop_eq (N % B) fuel hpos (by omega) (by omega), sub32_of_le hle hN]
    rfl

/-- Closed form of the run: with enough fuel it ends, after exactly the calls of the full
blocks followed by the call for the remaining samples. -/
theorem schedule_eq {α : Type} (fft : Kernel α) (B fuel : Nat) (zero : α) (junk : Nat → α)
    (N : Nat) (samples : List α) (hBpos : 0 < B) (hB : B ≤ 2 ^ 30) (hN : N < 2 ^ 32)
    (hf : N / B < fuel) (hf4 : B ≤ 4 ^ fuel) :
    schedule fft B fuel zero junk N samples
      = some (replay fft (fullCalls B (N / B) ++ remCalls B N)
          (initState zero junk N samples)) := by
  unfold schedule
  simp only [fullBlockLoop_eq fft B N fuel hN hf, remainderBlock_eq fft B N fuel hBpos hB hN hf4,
    replay_append]

theorem pow4_fuel {fuel : Nat} (hf : 5 ≤ fuel) : BLOCK_SIZE ≤ 4 ^ fuel := by
  have h : 4 ^ 5 ≤ 4 ^ fuel := Nat.pow_le_pow_right (by decide) hf
  have h5 : BLOCK_SIZE = 4 ^ 5 := by decide
  omega

/-- Closed form of the run of `main`. -/
theorem main_run_eq {α : Type} (fft : Kernel α) (fuel : Nat) (zero : α) (junk : Nat → α)
    (N : Nat) (samples : List α) (hN : N < 2 ^ 32) (hf : N / BLOCK_SIZE + 5 ≤ fuel) :
    main_run fft fuel zero junk N samples
      = some (replay fft (fullCalls BLOCK_SIZE (N / BLOCK_SIZE) ++ remCalls BLOCK_SIZE N)
          (initState zero junk N samples)) :=
  schedule_eq fft BLOCK_SIZE fuel zero junk N samples (by decide) (by decide) hN
    (by omega) (pow4_fuel (Nat.le_trans (Nat.le_add_left 5 _) hf))

/-- The run of `main` ends, and its calls and buffers are those of the closed form. -/
theorem main_run_some {α : Type} (fft : Kernel α) (fuel : Nat) (zero : α) (junk : Nat → α)
    (N : Nat) (samples : List α) (hN : N < 2 ^ 32) (hf : N / BLOCK_SIZE + 5 ≤ fuel) :
    ∃ st, main_run fft fuel zero junk N samples = some st ∧
      st.calls = fullCalls BLOCK_SIZE (N / BLOCK_SIZE) ++ remCalls BLOCK_SIZE N ∧
      st.mem = replayMem fft (fullCalls BLOCK_SIZE (N / BLOCK_SIZE) ++ remCalls BLOCK_SIZE N)
        (initBuffers zero junk N samples) := by
  refine ⟨_, main_run_eq fft fuel zero junk N samples hN hf, ?_, ?_⟩
  · rw [replay_calls, initState_calls, List.nil_append]
  · rw [replay_mem, initState_mem]

theorem fullCalls_length (B n : Nat) : (fullCalls B n).length = n := by
  simp [fullCalls]

theorem mem_fullCalls {B n : Nat} {c : Nat × Nat} (h : c ∈ fullCalls B n) :
    ∃ i, i < n ∧ c = (i * B, B) := by
  unfold fullCalls at h
  rw [List.mem_map] at h
  obtain ⟨i, hi, rfl⟩ := h
  exact ⟨i, List.mem_range.mp hi, rfl⟩

theorem fullCalls_getElem? (B n i : Nat) (h : i < n) :
    (fullCalls B n)[i]? = some (i * B, B) := by
  simp [fullCalls, List.getElem?_range h]

theorem remCalls_of_pos {B N : Nat} (h : 0 < N % B) :
    remCalls B N = [(N - N % B, 4 ^ Nat.log 4 (N % B))] := by
  unfold remCalls
  rw [if_neg (by omega)]

theorem remCalls_of_zero {B N : Nat} (h : N % B = 0) : remCalls B N = [] := by
  unfold remCalls
  rw [if_pos h]

theorem pow4_log_le {R : Nat} (h : 0 < R) : 4 ^ Nat.log 4 R ≤ R :=
  Nat.pow_log_le_self 4 (by omega)

theorem lt_four_mul_pow4_log (R : Nat) : R < 4 * 4 ^ Nat.log 4 R := by
  have h := Nat.lt_pow_succ_log_self (by decide : 1 < 4) R
  rw [Nat.pow_succ] at h
  omega

theorem pow4_le_pow4_log {R j : Nat} (h : 4 ^ j ≤ R) : 4 ^ j ≤ 4 ^ Nat.log 4 R :=
  Nat.pow_le_pow_right (by decide) (Nat.le_log_of_pow_le (by decide) h)

theorem pow4_unique {R j : Nat} (h1 : 4 ^ j ≤ R) (h2 : R < 4 * 4 ^ j) :
    4 ^ j = 4 ^ Nat.log 4 R := by
  have h3 : R < 4 ^ (j + 1) := by rw [Nat.pow_succ]; omega
  rw [Nat.log_eq_of_pow_le_of_lt_pow h1 h3]

theorem full_block_end_le {B N i : Nat} (h : i < N / B) : i * B + B ≤ N := by
  have h1 : (i + 1) * B ≤ N :=
    Nat.le_trans (Nat.mul_le_mul_right B h) (Nat.div_mul_le_self N B)
  rw [Nat.add_mul, Nat.one_mul] at h1
  exact h1

theorem sub_mod_eq (N B : Nat) : N - N % B = N / B * B := by
  have h := Nat.div_add_mod N B
  rw [Nat.mul_comm] at h
  omega

theorem fullCalls_pairwise (B n : Nat) (hB : 0 < B) :
    List.Pairwise (fun a b : Nat × Nat => a.1 < b.1) (fullCalls B n) := by
  unfold fullCalls
  rw [List.pairwise_map]
  exact (List.pairwise_lt_range n).imp (fun h => Nat.mul_lt_mul_of_pos_right h hB)

theorem calls_pairwise (B N : Nat) (hB : 0 < B) :
    List.Pairwise (fun a b : Nat × Nat => a.1 < b.1) (fullCalls B (N / B) ++ remCalls B N) := by
  rw [List.pairwise_append]
  refine ⟨fullCalls_pairwise B _ hB, ?_, ?_⟩
  · unfold remCalls
    split <;> simp
  · intro a ha b hb
    obtain ⟨i, hi, rfl⟩ := mem_fullCalls ha
    unfold remCalls at hb
    split at hb
    · simp at hb
    · rw [List.mem_singleton] at hb
      subst hb
      have h := full_block_end_le hi
      have h2 := sub_mod_eq N B
      have h3 : (i + 1) * B ≤ N / B * B := Nat.mul_le_mul_right B hi
      rw [Nat.add_mul, Nat.one_mul] at h3
      show i * B < N - N % B
      omega

theorem calls_in_bounds (B N : Nat) :
    ∀ c ∈ fullCalls B (N / B) ++ remCalls B N, c.1 + c.2 ≤ N := by
  intro c hc
  rw [List.mem_append] at hc
  rcases hc with hc | hc
  · obtain ⟨i, hi, rfl⟩ := mem_fullCalls hc
    exact full_block_end_le hi
  · unfold remCalls at hc
    split at hc
    · simp at hc
    · rw [List.mem_singleton] at hc
      subst hc
      have h1 : 4 ^ Nat.log 4 (N % B) ≤ N % B := pow4_log_le (by omega)
      have h2 : N % B ≤ N := Nat.mod_le N B
      show N - N % B + 4 ^ Nat.log 4 (N % B) ≤ N
      omega

theorem calls_length (B N : Nat) :
    (fullCalls B (N / B) ++ remCalls B N).length = N / B + (if 0 < N % B then 1 else 0) := by
  rw [List.length_append, fullCalls_length]
  unfold remCalls
  by_cases h : N % B = 0
  · simp [h]
  · have hp : 0 < N % B := Nat.pos_of_ne_zero h
    simp [h, hp]

/-! ## Effect of the calls on the buffers -/

theorem replayMem_append {α : Type} (fft : Kernel α) (cs ds : List (Nat × Nat))
    (m : Buffers α) : replayMem fft (cs ++ ds) m = replayMem fft ds (replayMem fft cs m) := by
  simp [replayMem, List.foldl_append]

theorem replayMem_cons {α : Type} (fft : Kernel α) (c : Nat × Nat) (cs : List (Nat × Nat))
    (m : Buffers α) : replayMem fft (c :: cs) m = replayMem fft cs (fft c.1 c.2 m) := rfl

theorem replayMem_frame {α : Type} (fft : Kernel α) (hfft : WritesOnlyWindow fft) (j : Nat) :
    ∀ (cs : List (Nat × Nat)) (m : Buffers α), (∀ c ∈ cs, j < c.1 ∨ c.1 + c.2 ≤ j) →
      (replayMem fft cs m).ptr_real[j]? = m.ptr_real[j]? ∧
      (replayMem fft cs m).ptr_imag[j]? = m.ptr_imag[j]? := by
  intro cs
  induction cs with
  | nil => intro m _; exact ⟨rfl, rfl⟩
  | cons c cs ih =>
    intro m h
    rw [replayMem_cons]
    have h1 := ih (fft c.1 c.2 m) (fun d hd => h d (List.mem_cons_of_mem c hd))
    have h2 := hfft c.1 c.2 m j (h c (List.mem_cons_self c cs))
    exact ⟨h1.1.trans h2.1, h1.2.trans h2.2⟩

theorem getElem?_slice {α : Type} (l : List α) (start len k : Nat) :
    (slice l start len)[k]? = if k < len then l[start + k]? else none := by
  unfold slice
  rw [List.getElem?_take, List.getElem?_drop]

theorem slice_congr {α : Type} (l1 l2 : List α) (start len : Nat)
    (h : ∀ j, start ≤ j → j < start + len → l1[j]? = l2[j]?) :
    slice l1 start len = slice l2 start len := by
  apply List.ext_getElem?
  intro k
  rw [getElem?_slice, getElem?_slice]
  split
  · exact h (start + k) (by omega) (by omega)
  · rfl

theorem replayMem_slice_frame {α : Type} (fft : Kernel α) (hfft : WritesOnlyWindow fft)
    (start len : Nat) (cs : List (Nat × Nat)) (m : Buffers α)
    (h : ∀ c ∈ cs, c.1 + c.2 ≤ start ∨ start + len ≤ c.1) :
    slice (replayMem fft cs m).ptr_real start len = slice m.ptr_real start len ∧
    slice (replayMem fft cs m).ptr_imag start len = slice m.ptr_imag start len := by
  constructor
  · apply slice_congr
    intro j h1 h2
    refine (replayMem_frame fft hfft j cs m ?_).1
    intro c hc
    rcases h c hc with h3 | h3 <;> omega
  · apply slice_congr
    intro j h1 h2
    refine (replayMem_frame fft hfft j cs m ?_).2
    intro c hc
    rcases h c hc with h3 | h3 <;> omega

theorem fullCalls_succ (B n : Nat) : fullCalls B (n + 1) = fullCalls B n ++ [(n * B, B)] := by
  simp [fullCalls, List.range_succ]

theorem fullCalls_split (B : Nat) : ∀ (n i : Nat), i < n →
    ∃ rest, fullCalls B n = fullCalls B i ++ (i * B, B) :: rest ∧
      ∀ c ∈ rest, (i + 1) * B ≤ c.1 := by
  intro n
  induction n with
  | zero => intro i hi; omega
  | succ n ih =>
    intro i hi
    rcases Nat.lt_succ_iff_lt_or_eq.mp hi with h | h
    · obtain ⟨rest, hrest, hge⟩ := ih i h
      refine ⟨rest ++ [(n * B, B)], ?_, ?_⟩
      · rw [fullCalls_succ, hrest]; simp
      · intro c hc
        rw [List.mem_append] at hc
        rcases hc with hc | hc
        · exact hge c hc
        · rw [List.mem_singleton] at hc
          subst hc
          exact Nat.mul_le_mul_right B h
    · subst h
      exact ⟨[], by rw [fullCalls_succ], by simp⟩

theorem slice_replicate {α : Type} (a : α) (N start len : Nat) (h : start + len ≤ N) :
    slice (List.replicate N a) start len = List.replicate len a := by
  unfold slice
  rw [List.drop_replicate, List.take_replicate]
  congr 1
  omega

theorem getElem?_onWindow (f : Int → Int) (start len : Nat) (l : List Int) (j : Nat) :
    (onWindow f start len l)[j]?
      = l[j]?.map (fun x => if start ≤ j ∧ j < start + len then f x else x) := by
  unfold onWindow
  rw [List.getElem?_mapIdx]

theorem onWindow_outside (f : Int → Int) (start len : Nat) (l : List Int) (j : Nat)
    (h : j < start ∨ start + len ≤ j) : (onWindow f start len l)[j]? = l[j]? := by
  rw [getElem?_onWindow]
  have hc : ¬ (start ≤ j ∧ j < start + len) := by omega
  simp [hc]

theorem slice_onWindow (f : Int → Int) (start len : Nat) (l : List Int) :
    slice (onWindow f start len l) start len = (slice l start len).map f := by
  apply List.ext_getElem?
  intro k
  rw [getElem?_slice, List.getElem?_map, getElem?_slice]
  split
  · rw [getElem?_onWindow]
    have hc : start ≤ start + k ∧ start + k < start + len := by omega
    simp [hc]
  · rfl

theorem sampleKernel_writesOnlyWindow : WritesOnlyWindow sampleKernel := by
  intro start len m j h
  exact ⟨onWindow_outside _ start len m.ptr_real j h, onWindow_outside _ start len m.ptr_imag j h⟩

theorem sampleKernel_computesSlice : ComputesSlice sampleKernel sampleSliceFn := by
  intro start len m
  exact ⟨slice_onWindow _ start len m.ptr_real, slice_onWindow _ start len m.ptr_imag⟩

/-! ## Full blocks -/

/-- Claim C1: for every 32-bit sample count `N`, the loop over the full blocks, started as
`main` starts it, ends after calling the FFT routine exactly `N / 1024` times, each time
with length exactly `1024`. -/
theorem full_block_loop_count {α : Type} (fft : Kernel α) (fuel : Nat) (zero : α)
    (junk : Nat → α) (N : Nat) (samples : List α) (hN : N < 2 ^ 32)
    (hf : N / 1024 < fuel) :
    ∃ st1, fullBlockLoop fft BLOCK_SIZE N (N / BLOCK_SIZE) fuel 0
        (initState zero junk N samples) = some st1 ∧
      st1.calls.length = N / 1024 ∧ ∀ c ∈ st1.calls, c.2 = 1024 := by
  refine ⟨_, fullBlockLoop_eq fft BLOCK_SIZE N fuel hN hf _, ?_, ?_⟩
  · rw [replay_calls, initState_calls, List.nil_append, fullCalls_length]; rfl
  · intro c hc
    rw [replay_calls, initState_calls, List.nil_append] at hc
    obtain ⟨i, _, rfl⟩ := mem_fullCalls hc
    rfl

/-- Claim C1 at `N = 1024`: one full block. -/
theorem full_block_loop_count_witness :
    ∃ st1, fullBlockLoop sampleKernel BLOCK_SIZE 1024 (1024 / BLOCK_SIZE) 2 0
        (initState 0 (fun _ => 7) 1024 (List.replicate 1024 3)) = some st1 ∧
      st1.calls.length = 1024 / 1024 ∧ ∀ c ∈ st1.calls, c.2 = 1024 :=
  full_block_loop_count sampleKernel 2 0 (fun _ => 7) 1024 (List.replicate 1024 3)
    (by decide) (by decide)

/-! ## The remaining samples -/

/-- Claim C2: for `0 < R < 1024` the power-of-four search loop, entered with `power_of_4 = 1`,
ends with a value `P` that is a power of four with `P ≤ R < 4 * P`; `P` is the only power of
four with that property, it is the largest power of four that is at most `R`, and `1 ≤ P`. -/
theorem power_of_4_search (R fuel : Nat) (hR0 : 0 < R) (hR : R < 1024) (hf : 5 ≤ fuel) :
    ∃ P, powerOf4Loop R fuel 1 = some P ∧ (∃ k, P = 4 ^ k) ∧ P ≤ R ∧ R < 4 * P ∧
      (∀ j, 4 ^ j ≤ R → R < 4 * 4 ^ j → 4 ^ j = P) ∧ (∀ j, 4 ^ j ≤ R → 4 ^ j ≤ P) ∧
      1 ≤ P := by
  have h4 : R < 4 ^ fuel := by
    have h := pow4_fuel hf
    unfold BLOCK_SIZE at h
    omega
  refine ⟨_, powerOf4Loop_eq R fuel hR0 (by omega) h4, ⟨_, rfl⟩, pow4_log_le hR0,
    lt_four_mul_pow4_log R, ?_, ?_, ?_⟩
  · intro j h1 h2
    exact pow4_unique h1 h2
  · intro j h1
    exact pow4_le_pow4_log h1
  · exact Nat.one_le_pow _ _ (by decide)

/-- Claim C2 at `R = 476`: the search ends with `256`. -/
theorem power_of_4_search_witness :
    powerOf4Loop 476 5 1 = some 256 ∧
    ∃ P, powerOf4Loop 476 5 1 = some P ∧ (∃ k, P = 4 ^ k) ∧ P ≤ 476 ∧ 476 < 4 * P ∧
      (∀ j, 4 ^ j ≤ 476 → 476 < 4 * 4 ^ j → 4 ^ j = P) ∧ (∀ j, 4 ^ j ≤ 476 → 4 ^ j ≤ P) ∧
      1 ≤ P :=
  ⟨by decide, power_of_4_search 476 5 (by decide) (by decide) (by decide)⟩

/-- Claim C3: when `R = N % 1024 > 0`, the run issues exactly one call for the remaining
samples, after all the calls of the full blocks, at start index `N - R = (N / 1024) * 1024`
and with a length `P` that is the largest power of four with `P ≤ R`. -/
theorem remainder_call {α : Type} (fft : Kernel α) (fuel : Nat) (zero : α)
    (junk : Nat → α) (N : Nat) (samples : List α) (hN : N < 2 ^ 32) (hR : 0 < N % 1024)
    (hf : N / 1024 + 5 ≤ fuel) :
    ∃ st1 st2 P,
      fullBlockLoop fft BLOCK_SIZE N (N / BLOCK_SIZE) fuel 0 (initState zero junk N samples)
        = some st1 ∧
      remainderBlock fft BLOCK_SIZE N fuel st1 = some st2 ∧
      main_run fft fuel zero junk N samples = some st2 ∧
      st1.calls = (List.range (N / 1024)).map (fun i => (i * 1024, 1024)) ∧
      st2.calls = st1.calls ++ [(N - N % 1024, P)] ∧
      st2.mem = fft (N - N % 1024) P st1.mem ∧
      N - N % 1024 = N / 1024 * 1024 ∧
      (∃ k, P = 4 ^ k) ∧ P ≤ N % 1024 ∧ ∀ j, 4 ^ j ≤ N % 1024 → 4 ^ j ≤ P := by
  have hloop := fullBlockLoop_eq fft BLOCK_SIZE N fuel hN (by unfold BLOCK_SIZE; omega)
    (initState zero junk N samples)
  have hrem := remainderBlock_eq fft BLOCK_SIZE N fuel (by decide) (by decide) hN
    (pow4_fuel (Nat.le_trans (Nat.le_add_left 5 _) hf))
    (replay fft (fullCalls BLOCK_SIZE (N / BLOCK_SIZE)) (initState zero junk N samples))
  have hrc : remCalls BLOCK_SIZE N = [(N - N % 1024, 4 ^ Nat.log 4 (N % 1024))] :=
    remCalls_of_pos hR
  refine ⟨_, _, 4 ^ Nat.log 4 (N % 1024), hloop, hrem, ?_, ?_, ?_, ?_, sub_mod_eq N 1024,
    ⟨_, rfl⟩, pow4_log_le hR, fun j hj => pow4_le_pow4_log hj⟩
  · rw [main_run_eq fft fuel zero junk N samples hN hf, replay_append]
  · rw [replay_calls, initState_calls, List.nil_append]; rfl
  · rw [hrc]; rfl
  · rw [hrc]; rfl

/-- Claim C3 at `N = 1500`: one full block, then the block `[1024, 1280)` of length `256`
for the `476` remaining samples. -/
theorem remainder_call_witness :
    (1500 % 1024 = 476 ∧
      Option.map (fun st => st.calls)
          (main_run sampleKernel 6 0 (fun _ => 7) 1500 (List.replicate 1500 3))
        = some [(0, 1024), (1024, 256)]) ∧
    ∃ st1 st2 P,
      fullBlockLoop sampleKernel BLOCK_SIZE 1500 (1500 / BLOCK_SIZE) 6 0
          (initState 0 (fun _ => 7) 1500 (List.replicate 1500 3)) = some st1 ∧
      remainderBlock sampleKernel BLOCK_SIZE 1500 6 st1 = some st2 ∧
      main_run sampleKernel 6 0 (fun _ => 7) 1500 (List.replicate 1500 3) = some st2 ∧
      st1.calls = (List.range (1500 / 1024)).map (fun i => (i * 1024, 1024)) ∧
      st2.calls = st1.calls ++ [(1500 - 1500 % 1024, P)] ∧
      st2.mem = sampleKernel (1500 - 1500 % 1024) P st1.mem ∧
      1500 - 1500 % 1024 = 1500 / 1024 * 1024 ∧
      (∃ k, P = 4 ^ k) ∧ P ≤ 1500 % 1024 ∧ ∀ j, 4 ^ j ≤ 1500 % 1024 → 4 ^ j ≤ P :=
  ⟨⟨by decide, by decide⟩,
    remainder_call sampleKernel 6 0 (fun _ => 7) 1500 (List.replicate 1500 3)
      (by decide) (by decide) (by decide)⟩

/-- Claim C4: when `N % 1024 = 0` the run issues no call for remaining samples: its calls
are the `N / 1024` full blocks of length `1024`, block `i` at start index `i * 1024`, and
nothing else. -/
theorem exact_multiple_only_full_blocks {α : Type} (fft : Kernel α) (fuel : Nat) (zero : α)
    (junk : Nat → α) (N : Nat) (samples : List α) (hN : N < 2 ^ 32) (hR : N % 1024 = 0)
    (hf : N / 1024 + 5 ≤ fuel) :
    ∃ st, main_run fft fuel zero junk N samples = some st ∧
      st.calls = (List.range (N / 1024)).map (fun i => (i * 1024, 1024)) ∧
      st.calls.length = N / 1024 := by
  obtain ⟨st, hst, hcalls, _⟩ := main_run_some fft fuel zero junk N samples hN hf
  have hrc : remCalls BLOCK_SIZE N = [] := remCalls_of_zero hR
  rw [hrc, List.append_nil] at hcalls
  refine ⟨st, hst, ?_, ?_⟩
  · rw [hcalls]; rfl
  · rw [hcalls, fullCalls_length]; rfl

/-- Claim C4 at `N = 2048`: two full blocks and nothing else. -/
theorem exact_multiple_only_full_blocks_witness :
    Option.map (fun st => st.calls)
        (main_run sampleKernel 7 0 (fun _ => 7) 2048 (List.replicate 2048 3))
      = some [(0, 1024), (1024, 1024)] ∧
    ∃ st, main_run sampleKernel 7 0 (fun _ => 7) 2048 (List.replicate 2048 3) = some st ∧
      st.calls = (List.range (2048 / 1024)).map (fun i => (i * 1024, 1024)) ∧
      st.calls.length = 2048 / 1024 :=
  ⟨by decide,
    exact_multiple_only_full_blocks sampleKernel 7 0 (fun _ => 7) 2048 (List.replicate 2048 3)
      (by decide) (by decide) (by decide)⟩

/-! ## Contents of the buffers after the run -/

/-- Claim C5: if the FFT routine writes only the window it is handed, then after the run
every index `j` with `N - R + P ≤ j < N`, where `R = N % 1024` and `P` is the length of the
call for the remaining samples, still holds the original sample in `ptr_real` and zero in
`ptr_imag`. (When `R = 0` there is no such call and no such index.) -/
theorem tail_untouched {α : Type} (fft : Kernel α) (fuel : Nat) (zero : α)
    (junk : Nat → α) (N : Nat) (samples : List α) (hfft : WritesOnlyWindow fft)
    (hN : N < 2 ^ 32) (hf : N / 1024 + 5 ≤ fuel) :
    ∃ st, main_run fft fuel zero junk N samples = some st ∧
      ∀ P, (0 < N % 1024 → st.calls.getLast? = some (N - N % 1024, P)) →
        ∀ j, N - N % 1024 + P ≤ j → j < N →
          st.mem.ptr_real[j]? = samples[j]? ∧ st.mem.ptr_imag[j]? = some zero := by
  obtain ⟨st, hst, hcalls, hmem⟩ := main_run_some fft fuel zero junk N samples hN hf
  refine ⟨st, hst, ?_⟩
  intro P hP j hj hjN
  have hmod : N % 1024 ≤ N := Nat.mod_le N 1024
  have hRpos : 0 < N % 1024 := by omega
  have hrc : remCalls BLOCK_SIZE N = [(N - N % 1024, 4 ^ Nat.log 4 (N % 1024))] :=
    remCalls_of_pos hRpos
  have hlast := hP hRpos
  rw [hcalls, hrc, List.getLast?_concat] at hlast
  have hPeq : 4 ^ Nat.log 4 (N % 1024) = P := by
    have h := Option.some.inj hlast
    exact congrArg Prod.snd h
  have hout : ∀ c ∈ fullCalls BLOCK_SIZE (N / BLOCK_SIZE) ++ remCalls BLOCK_SIZE N,
      j < c.1 ∨ c.1 + c.2 ≤ j := by
    intro c hc
    right
    rw [List.mem_append] at hc
    rcases hc with hc | hc
    · obtain ⟨i, hi, rfl⟩ := mem_fullCalls hc
      have h1 : (i + 1) * 1024 ≤ N / 1024 * 1024 := Nat.mul_le_mul_right 1024 hi
      have h2 := sub_mod_eq N 1024
      show i * 1024 + 1024 ≤ j
      omega
    · rw [hrc, List.mem_singleton] at hc
      subst hc
      show N - N % 1024 + 4 ^ Nat.log 4 (N % 1024) ≤ j
      omega
  have hframe := replayMem_frame fft hfft j _ (initBuffers zero junk N samples) hout
  rw [← hmem] at hframe
  refine ⟨hframe.1, ?_⟩
  rw [hframe.2]
  show (List.replicate N zero)[j]? = some zero
  exact List.getElem?_replicate_of_lt hjN

/-- Claim C5 at `N = 7` with samples `10, ..., 16`: the call for the remaining samples
covers `[0, 4)` and the entries `4, 5, 6` keep their sample and a zero imaginary part. -/
theorem tail_untouched_witness :
    (Option.map (fun st => (st.calls, st.mem.ptr_real, st.mem.ptr_imag))
        (main_run sampleKernel 5 0 (fun _ => 7) 7 [10, 11, 12, 13, 14, 15, 16])
      = some ([(0, 4)], [11, 12, 13, 14, 14, 15, 16], [-1, -1, -1, -1, 0, 0, 0])) ∧
    ∃ st, main_run sampleKernel 5 0 (fun _ => 7) 7 [10, 11, 12, 13, 14, 15, 16] = some st ∧
      ∀ P, (0 < 7 % 1024 → st.calls.getLast? = some (7 - 7 % 1024, P)) →
        ∀ j, 7 - 7 % 1024 + P ≤ j → j < 7 →
          st.mem.ptr_real[j]? = [10, 11, 12, 13, 14, 15, (16 : Int)][j]? ∧
          st.mem.ptr_imag[j]? = some 0 :=
  ⟨by decide,
    tail_untouched sampleKernel 5 0 (fun _ => 7) 7 [10, 11, 12, 13, 14, 15, 16]
      sampleKernel_writesOnlyWindow (by decide) (by decide)⟩

/-- Claim C6: if the FFT routine writes only the window it is handed and computes there the
function `K` of the length and of the two slices, then after the run, for every full block
`i < N / 1024`, the windows `[i * 1024, (i + 1) * 1024)` of `ptr_real` and `ptr_imag` hold
the two components of `K 1024 s z`, where `s` is that window of the original samples and
`z` is `1024` zeros. -/
theorem full_block_output {α : Type} (fft : Kernel α)
    (K : Nat → List α → List α → List α × List α) (fuel : Nat) (zero : α)
    (junk : Nat → α) (N : Nat) (samples : List α) (i : Nat)
    (hfft : WritesOnlyWindow fft) (hK : ComputesSlice fft K)
    (hN : N < 2 ^ 32) (hf : N / 1024 + 5 ≤ fuel) (hi : i < N / 1024) :
    ∃ st, main_run fft fuel zero junk N samples = some st ∧
      slice st.mem.ptr_real (i * 1024) 1024
        = (K 1024 (slice samples (i * 1024) 1024) (List.replicate 1024 zero)).1 ∧
      slice st.mem.ptr_imag (i * 1024) 1024
        = (K 1024 (slice samples (i * 1024) 1024) (List.replicate 1024 zero)).2 := by
  obtain ⟨st, hst, _, hmem⟩ := main_run_some fft fuel zero junk N samples hN hf
  refine ⟨st, hst, ?_⟩
  obtain ⟨rest, hsplit, hrest⟩ := fullCalls_split BLOCK_SIZE (N / BLOCK_SIZE) i hi
  have hend : i * 1024 + 1024 ≤ N := full_block_end_le hi
  -- the calls before block `i` leave its window as it was at the start
  have hbefore := replayMem_slice_frame fft hfft (i * 1024) 1024 (fullCalls BLOCK_SIZE i)
    (initBuffers zero junk N samples) (by
      intro c hc
      left
      obtain ⟨k, hk, rfl⟩ := mem_fullCalls hc
      have h1 : (k + 1) * 1024 ≤ i * 1024 := Nat.mul_le_mul_right 1024 hk
      show k * 1024 + 1024 ≤ i * 1024
      omega)
  -- the calls after block `i` leave its window as block `i` wrote it
  have hafter := replayMem_slice_frame fft hfft (i * 1024) 1024
    (rest ++ remCalls BLOCK_SIZE N)
    (fft (i * 1024) 1024 (replayMem fft (fullCalls BLOCK_SIZE i)
      (initBuffers zero junk N samples))) (by
      intro c hc
      right
      rw [List.mem_append] at hc
      rcases hc with hc | hc
      · have h := hrest c hc
        have h1 : (i + 1) * BLOCK_SIZE = i * 1024 + 1024 := by
          unfold BLOCK_SIZE; omega
        omega
      · unfold remCalls at hc
        split at hc
        · simp at hc
        · rw [List.mem_singleton] at hc
          subst hc
          have h1 : (i + 1) * 1024 ≤ N / 1024 * 1024 := Nat.mul_le_mul_right 1024 hi
          have h2 := sub_mod_eq N 1024
          show i * 1024 + 1024 ≤ N - N % 1024
          omega)
  have hmem2 : st.mem = replayMem fft (rest ++ remCalls BLOCK_SIZE N)
      (fft (i * 1024) 1024 (replayMem fft (fullCalls BLOCK_SIZE i)
        (initBuffers zero junk N samples))) := by
    rw [hmem, hsplit, List.append_assoc, replayMem_append, List.cons_append, replayMem_cons]
    rfl
  have hcall := hK (i * 1024) 1024
    (replayMem fft (fullCalls BLOCK_SIZE i) (initBuffers zero junk N samples))
  rw [hbefore.1, hbefore.2] at hcall
  have hz : slice (initBuffers zero junk N samples).ptr_imag (i * 1024) 1024
      = List.replicate 1024 zero := slice_replicate zero N (i * 1024) 1024 hend
  have hs : (initBuffers zero junk N samples).ptr_real = samples := rfl
  rw [hz, hs] at hcall
  rw [hmem2, hafter.1, hafter.2]
  exact hcall

/-- Claim C6 at `N = 1500`, block `0`, with a routine that adds one to the real window and
subtracts one from the imaginary window. -/
theorem full_block_output_witness :
    ∃ st, main_run sampleKernel 6 0 (fun _ => 7) 1500 (List.replicate 1500 3) = some st ∧
      slice st.mem.ptr_real (0 * 1024) 1024
        = (sampleSliceFn 1024 (slice (List.replicate 1500 3) (0 * 1024) 1024)
            (List.replicate 1024 0)).1 ∧
      slice st.mem.ptr_imag (0 * 1024) 1024
        = (sampleSliceFn 1024 (slice (List.replicate 1500 3) (0 * 1024) 1024)
            (List.replicate 1024 0)).2 :=
  full_block_output sampleKernel sampleSliceFn 6 0 (fun _ => 7) 1500 (List.replicate 1500 3) 0
    sampleKernel_writesOnlyWindow sampleKernel_computesSlice (by decide) (by decide)
    (by decide)

/-! ## Order, bounds and number of the calls -/

/-- Claim C7: the calls of a run have strictly increasing start indices; the call number `i`
(counting from zero) of the full blocks starts at `i * 1024`; the call for the remaining
samples, when there is one, is the last call and starts above every full block. -/
theorem calls_strictly_increasing {α : Type} (fft : Kernel α) (fuel : Nat) (zero : α)
    (junk : Nat → α) (N : Nat) (samples : List α) (hN : N < 2 ^ 32)
    (hf : N / 1024 + 5 ≤ fuel) :
    ∃ st, main_run fft fuel zero junk N samples = some st ∧
      List.Pairwise (fun a b : Nat × Nat => a.1 < b.1) st.calls ∧
      (∀ i, i < N / 1024 → st.calls[i]? = some (i * 1024, 1024)) ∧
      (0 < N % 1024 → ∃ P, st.calls[N / 1024]? = some (N - N % 1024, P) ∧
        st.calls.length = N / 1024 + 1 ∧ ∀ i, i < N / 1024 → i * 1024 < N - N % 1024) := by
  obtain ⟨st, hst, hcalls, _⟩ := main_run_some fft fuel zero junk N samples hN hf
  refine ⟨st, hst, ?_, ?_, ?_⟩
  · rw [hcalls]
    exact calls_pairwise BLOCK_SIZE N (by decide)
  · intro i hi
    have hlen : i < (fullCalls BLOCK_SIZE (N / BLOCK_SIZE)).length := by
      rw [fullCalls_length]; exact hi
    rw [hcalls, List.getElem?_append_left hlen]
    exact fullCalls_getElem? BLOCK_SIZE (N / BLOCK_SIZE) i hi
  · intro hR
    have hrc : remCalls BLOCK_SIZE N = [(N - N % 1024, 4 ^ Nat.log 4 (N % 1024))] :=
      remCalls_of_pos hR
    refine ⟨4 ^ Nat.log 4 (N % 1024), ?_, ?_, ?_⟩
    · have hlen : (fullCalls BLOCK_SIZE (N / BLOCK_SIZE)).length ≤ N / 1024 := by
        rw [fullCalls_length]; exact Nat.le_refl _
      rw [hcalls, hrc, List.getElem?_append_right hlen, fullCalls_length]
      have h0 : N / 1024 - N / BLOCK_SIZE = 0 := Nat.sub_self _
      rw [h0]
      rfl
    · rw [hcalls, hrc, List.length_append, fullCalls_length]; rfl
    · intro i hi
      have h := sub_mod_eq N 1024
      omega

/-- Claim C7 at `N = 2500`: start indices `0 < 1024 < 2048`. -/
theorem calls_strictly_increasing_witness :
    Option.map (fun st => st.calls)
        (main_run sampleKernel 7 0 (fun _ => 7) 2500 (List.replicate 2500 3))
      = some [(0, 1024), (1024, 1024), (2048, 256)] ∧
    ∃ st, main_run sampleKernel 7 0 (fun _ => 7) 2500 (List.replicate 2500 3) = some st ∧
      List.Pairwise (fun a b : Nat × Nat => a.1 < b.1) st.calls ∧
      (∀ i, i < 2500 / 1024 → st.calls[i]? = some (i * 1024, 1024)) ∧
      (0 < 2500 % 1024 → ∃ P, st.calls[2500 / 1024]? = some (2500 - 2500 % 1024, P) ∧
        st.calls.length = 2500 / 1024 + 1 ∧
        ∀ i, i < 2500 / 1024 → i * 1024 < 2500 - 2500 % 1024) :=
  ⟨by decide,
    calls_strictly_increasing sampleKernel 7 0 (fun _ => 7) 2500 (List.replicate 2500 3)
      (by decide) (by decide)⟩

/-- Claim C8: every call of a run, for a full block or for the remaining samples, has
`start index + length ≤ N`: no call is handed a slice that reaches past the `N` elements. -/
theorem calls_within_buffers {α : Type} (fft : Kernel α) (fuel : Nat) (zero : α)
    (junk : Nat → α) (N : Nat) (samples : List α) (hN : N < 2 ^ 32)
    (hf : N / 1024 + 5 ≤ fuel) :
    ∃ st, main_run fft fuel zero junk N samples = some st ∧
      ∀ c ∈ st.calls, c.1 + c.2 ≤ N := by
  obtain ⟨st, hst, hcalls, _⟩ := main_run_some fft fuel zero junk N samples hN hf
  refine ⟨st, hst, ?_⟩
  rw [hcalls]
  exact calls_in_bounds BLOCK_SIZE N

/-- Claim C8 at `N = 1500`. -/
theorem calls_within_buffers_witness :
    ∃ st, main_run sampleKernel 6 0 (fun _ => 7) 1500 (List.replicate 1500 3) = some st ∧
      ∀ c ∈ st.calls, c.1 + c.2 ≤ 1500 :=
  calls_within_buffers sampleKernel 6 0 (fun _ => 7) 1500 (List.replicate 1500 3)
    (by decide) (by decide)

/-- Claim C9: the scheduling part of the run ends, and the number of calls is
`N / 1024`, plus one exactly when `N % 1024 > 0`; this is at most the ceiling of `N / 1024`. -/
theorem calls_count_bounded {α : Type} (fft : Kernel α) (fuel : Nat) (zero : α)
    (junk : Nat → α) (N : Nat) (samples : List α) (hN : N < 2 ^ 32)
    (hf : N / 1024 + 5 ≤ fuel) :
    ∃ st, main_run fft fuel zero junk N samples = some st ∧
      st.calls.length = N / 1024 + (if 0 < N % 1024 then 1 else 0) ∧
      st.calls.length ≤ (N + 1023) / 1024 := by
  obtain ⟨st, hst, hcalls, _⟩ := main_run_some fft fuel zero junk N samples hN hf
  have hlen : st.calls.length = N / 1024 + (if 0 < N % 1024 then 1 else 0) := by
    rw [hcalls]
    exact calls_length BLOCK_SIZE N
  refine ⟨st, hst, hlen, ?_⟩
  rw [hlen]
  split <;> omega

/-- Claim C9 at `N = 1500`: two calls. -/
theorem calls_count_bounded_witness :
    ∃ st, main_run sampleKernel 6 0 (fun _ => 7) 1500 (List.replicate 1500 3) = some st ∧
      st.calls.length = 1500 / 1024 + (if 0 < 1500 % 1024 then 1 else 0) ∧
      st.calls.length ≤ (1500 + 1023) / 1024 :=
  calls_count_bounded sampleKernel 6 0 (fun _ => 7) 1500 (List.replicate 1500 3)
    (by decide) (by decide)

/-! ## Lengths handed to the FFT routine -/

theorem log4_le_four {R : Nat} (h0 : 0 < R) (h : R < 1024) : Nat.log 4 R ≤ 4 := by
  have h5 : R < 4 ^ 5 := by
    have h45 : (4 : Nat) ^ 5 = 1024 := by decide
    omega
  have hlt : Nat.log 4 R < 5 := Nat.log_lt_of_lt_pow (by omega) h5
  omega

theorem pow4_eq_two_pow (k : Nat) : 4 ^ k = 2 ^ (2 * k) := by
  rw [Nat.pow_mul]

theorem pow4_le_256 {k : Nat} (h : k ≤ 4) : 4 ^ k ≤ 256 := by
  have h1 : 4 ^ k ≤ 4 ^ 4 := Nat.pow_le_pow_right (by decide) h
  have h2 : (4 : Nat) ^ 4 = 256 := by decide
  omega

theorem calls_lengths (N : Nat) :
    ∀ c ∈ fullCalls BLOCK_SIZE (N / BLOCK_SIZE) ++ remCalls BLOCK_SIZE N,
      c.2 = 1024 ∨ ∃ k, k ≤ 4 ∧ c.2 = 4 ^ k := by
  intro c hc
  rw [List.mem_append] at hc
  rcases hc with hc | hc
  · obtain ⟨i, _, rfl⟩ := mem_fullCalls hc
    left
    rfl
  · unfold remCalls at hc
    split at hc
    · simp at hc
    · rw [List.mem_singleton] at hc
      subst hc
      right
      have hlt : N % BLOCK_SIZE < 1024 := Nat.mod_lt N (by decide)
      exact ⟨_, log4_le_four (by omega) hlt, rfl⟩

/-- Claim C11: for every `N`, every length handed to the FFT routine is a power of two
(`1024 = 2 ^ 10` for a full block, a power of four for the remaining samples), is at most
`1024`, and four times it is at most the number of scratch slots allocated. -/
theorem lengths_meet_kernel_precondition {α : Type} (fft : Kernel α) (fuel : Nat) (zero : α)
    (junk : Nat → α) (N : Nat) (samples : List α) (hN : N < 2 ^ 32)
    (hf : N / 1024 + 5 ≤ fuel) :
    ∃ st, main_run fft fuel zero junk N samples = some st ∧
      ∀ c ∈ st.calls, (∃ e, c.2 = 2 ^ e) ∧ (c.2 = 1024 ∨ ∃ k, c.2 = 4 ^ k) ∧
        c.2 ≤ BLOCK_SIZE ∧ 4 * c.2 ≤ SCRATCH_SLOTS := by
  obtain ⟨st, hst, hcalls, _⟩ := main_run_some fft fuel zero junk N samples hN hf
  refine ⟨st, hst, ?_⟩
  intro c hc
  rw [hcalls] at hc
  rcases calls_lengths N c hc with h | ⟨k, hk, h⟩
  · rw [h]
    exact ⟨⟨10, by decide⟩, Or.inl rfl, by decide, by decide⟩
  · have h256 := pow4_le_256 hk
    rw [h]
    refine ⟨⟨2 * k, pow4_eq_two_pow k⟩, Or.inr ⟨k, rfl⟩, ?_, ?_⟩
    · unfold BLOCK_SIZE; omega
    · unfold SCRATCH_SLOTS; omega

/-- Claim C11 at `N = 1500`: lengths `1024` and `256`. -/
theorem lengths_meet_kernel_precondition_witness :
    Option.map (fun st => st.calls.map (fun c => c.2))
        (main_run sampleKernel 6 0 (fun _ => 7) 1500 (List.replicate 1500 3))
      = some [1024, 256] ∧
    ∃ st, main_run sampleKernel 6 0 (fun _ => 7) 1500 (List.replicate 1500 3) = some st ∧
      ∀ c ∈ st.calls, (∃ e, c.2 = 2 ^ e) ∧ (c.2 = 1024 ∨ ∃ k, c.2 = 4 ^ k) ∧
        c.2 ≤ BLOCK_SIZE ∧ 4 * c.2 ≤ SCRATCH_SLOTS :=
  ⟨by decide,
    lengths_meet_kernel_precondition sampleKernel 6 0 (fun _ => 7) 1500
      (List.replicate 1500 3) (by decide) (by decide)⟩

/-! ## Small sample counts -/

/-- Claim C12: for `N = 0` the run does nothing: it ends with no call issued, neither for a
full block nor for remaining samples, and with the (empty) buffers as they were. -/
theorem zero_samples_no_op {α : Type} (fft : Kernel α) (fuel : Nat) (zero : α)
    (junk : Nat → α) (hf : 0 < fuel) :
    main_run fft fuel zero junk 0 [] = some (initState zero junk 0 []) ∧
    (initState zero junk 0 []).calls = [] ∧
    (initState zero junk 0 []).mem.ptr_real = [] ∧
    (initState zero junk 0 []).mem.ptr_imag = [] ∧
    fullBlockLoop fft BLOCK_SIZE 0 (0 / BLOCK_SIZE) fuel 0 (initState zero junk 0 [])
      = some (initState zero junk 0 []) ∧
    remainderBlock fft BLOCK_SIZE 0 fuel (initState zero junk 0 [])
      = some (initState zero junk 0 []) := by
  obtain ⟨f, rfl⟩ : ∃ f, fuel = f + 1 := ⟨fuel - 1, by omega⟩
  refine ⟨?_, rfl, rfl, rfl, ?_, ?_⟩
  · simp [main_run, schedule, fullBlockLoop, remainderBlock, BLOCK_SIZE]
  · simp [fullBlockLoop, BLOCK_SIZE]
  · simp [remainderBlock, BLOCK_SIZE]

/-- Claim C12 with one unit of fuel. -/
theorem zero_samples_no_op_witness :
    main_run sampleKernel 1 0 (fun _ => 7) 0 [] = some (initState 0 (fun _ => 7) 0 []) ∧
    (initState (0 : Int) (fun _ => 7) 0 []).calls = [] ∧
    (initState (0 : Int) (fun _ => 7) 0 []).mem.ptr_real = [] ∧
    (initState (0 : Int) (fun _ => 7) 0 []).mem.ptr_imag = [] ∧
    fullBlockLoop sampleKernel BLOCK_SIZE 0 (0 / BLOCK_SIZE) 1 0 (initState 0 (fun _ => 7) 0 [])
      = some (initState 0 (fun _ => 7) 0 []) ∧
    remainderBlock sampleKernel BLOCK_SIZE 0 1 (initState 0 (fun _ => 7) 0 [])
      = some (initState 0 (fun _ => 7) 0 []) :=
  zero_samples_no_op sampleKernel 1 0 (fun _ => 7) (by decide)

/-- Claim C13 fails at `N = 0`: zero is below the block size, yet the run issues no call at
all, so it is not true that every `N < 1024` gets exactly one call for remaining samples. -/
theorem small_count_single_block_counterexample :
    (0 < BLOCK_SIZE ∧
      Option.map (fun st => st.calls) (main_run sampleKernel 5 0 (fun _ => 7) 0 []) = some []) ∧
    ¬ (∀ N, N < 1024 → ∃ st P,
        main_run sampleKernel 5 0 (fun _ => 7) N (List.replicate N 3) = some st ∧
        st.calls = [(0, P)]) := by
  refine ⟨⟨by decide, by decide⟩, ?_⟩
  intro h
  obtain ⟨st, P, hst, hcalls⟩ := h 0 (by decide)
  have h0 : main_run sampleKernel 5 0 (fun _ => 7) 0 (List.replicate 0 3)
      = some (initState 0 (fun _ => 7) 0 []) := by
    simp [main_run, schedule, fullBlockLoop, remainderBlock, BLOCK_SIZE]
  rw [h0] at hst
  have hst2 := Option.some.inj hst
  rw [← hst2, initState_calls] at hcalls
  exact List.noConfusion hcalls

/-- Claim C13 as amended: for every `N` with `0 < N < 1024` the run issues no call for a full
block and exactly one call for the remaining samples, at start index `0`, whose length is the
largest power of four that is at most `N`. -/
theorem small_count_single_block {α : Type} (fft : Kernel α) (fuel : Nat) (zero : α)
    (junk : Nat → α) (N : Nat) (samples : List α) (hN0 : 0 < N) (hN : N < 1024)
    (hf : 5 ≤ fuel) :
    ∃ st1 st P,
      fullBlockLoop fft BLOCK_SIZE N (N / BLOCK_SIZE) fuel 0 (initState zero junk N samples)
        = some st1 ∧ st1.calls = [] ∧
      main_run fft fuel zero junk N samples = some st ∧
      st.calls = [(0, P)] ∧ st.mem = fft 0 P (initBuffers zero junk N samples) ∧
      (∃ k, P = 4 ^ k) ∧ P ≤ N ∧ ∀ j, 4 ^ j ≤ N → 4 ^ j ≤ P := by
  have hdiv : N / BLOCK_SIZE = 0 := Nat.div_eq_of_lt hN
  have hmod : N % BLOCK_SIZE = N := Nat.mod_eq_of_lt hN
  have hN32 : N < 2 ^ 32 := by omega
  have hloop := fullBlockLoop_eq fft BLOCK_SIZE N fuel hN32 (by rw [hdiv]; omega)
    (initState zero junk N samples)
  have hrun := main_run_eq fft fuel zero junk N samples hN32 (by rw [hdiv]; omega)
  have hrc : remCalls BLOCK_SIZE N = [(0, 4 ^ Nat.log 4 N)] := by
    have h := remCalls_of_pos (B := BLOCK_SIZE) (N := N) (by rw [hmod]; exact hN0)
    rw [hmod, Nat.sub_self] at h
    exact h
  have hfc : fullCalls BLOCK_SIZE 0 = [] := rfl
  have hloop0 : fullBlockLoop fft BLOCK_SIZE N (N / BLOCK_SIZE) fuel 0
      (initState zero junk N samples) = some (initState zero junk N samples) := by
    rw [hloop, hdiv, hfc, replay_nil]
  rw [hdiv, hfc, hrc, List.nil_append] at hrun
  exact ⟨_, _, 4 ^ Nat.log 4 N, hloop0, rfl, hrun, rfl, rfl, ⟨_, rfl⟩, pow4_log_le hN0,
    fun j hj => pow4_le_pow4_log hj⟩

/-- Claim C13 as amended, at `N = 3`: the single call is `(0, 1)`, and the entries `1` and
`2` keep their sample and a zero imaginary part. -/
theorem small_count_single_block_witness :
    (Option.map (fun st => (st.calls, st.mem.ptr_real, st.mem.ptr_imag))
        (main_run sampleKernel 5 0 (fun _ => 7) 3 [10, 11, 12])
      = some ([(0, 1)], [11, 11, 12], [-1, 0, 0])) ∧
    ∃ st1 st P,
      fullBlockLoop sampleKernel BLOCK_SIZE 3 (3 / BLOCK_SIZE) 5 0
          (initState 0 (fun _ => 7) 3 [10, 11, 12]) = some st1 ∧ st1.calls = [] ∧
      main_run sampleKernel 5 0 (fun _ => 7) 3 [10, 11, 12] = some st ∧
      st.calls = [(0, P)] ∧
      st.mem = sampleKernel 0 P (initBuffers 0 (fun _ => 7) 3 [10, 11, 12]) ∧
      (∃ k, P = 4 ^ k) ∧ P ≤ 3 ∧ ∀ j, 4 ^ j ≤ 3 → 4 ^ j ≤ P :=
  ⟨by decide,
    small_count_single_block sampleKernel 5 0 (fun _ => 7) 3 [10, 11, 12]
      (by decide) (by decide) (by decide)⟩

/-! ## The calls depend on the sample count only -/

/-- Claim C14: two runs with the same sample count `N` issue the same sequence of calls
`(start index, length)`, whatever the sample values, the scratch contents, the results of
the FFT routine and even the type of the values are. -/
theorem calls_depend_on_count_only {α β : Type} (fft1 : Kernel α) (fft2 : Kernel β)
    (fuel1 fuel2 : Nat) (zero1 : α) (zero2 : β) (junk1 : Nat → α) (junk2 : Nat → β)
    (N : Nat) (samples1 : List α) (samples2 : List β) (hN : N < 2 ^ 32)
    (hf1 : N / 1024 + 5 ≤ fuel1) (hf2 : N / 1024 + 5 ≤ fuel2) :
    ∃ st1 st2, main_run fft1 fuel1 zero1 junk1 N samples1 = some st1 ∧
      main_run fft2 fuel2 zero2 junk2 N samples2 = some st2 ∧
      st1.calls = st2.calls := by
  obtain ⟨st1, hst1, hcalls1, _⟩ := main_run_some fft1 fuel1 zero1 junk1 N samples1 hN hf1
  obtain ⟨st2, hst2, hcalls2, _⟩ := main_run_some fft2 fuel2 zero2 junk2 N samples2 hN hf2
  exact ⟨st1, st2, hst1, hst2, hcalls1.trans hcalls2.symm⟩

/-- Claim C14 at `N = 1500`, with two different routines and different samples. -/
theorem calls_depend_on_count_only_witness :
    ∃ st1 st2,
      main_run sampleKernel 6 0 (fun _ => 7) 1500 (List.replicate 1500 3) = some st1 ∧
      main_run (fun _ _ (m : Buffers Bool) => m) 9 false (fun _ => true) 1500
        (List.replicate 1500 true) = some st2 ∧
      st1.calls = st2.calls :=
  calls_depend_on_count_only sampleKernel (fun _ _ (m : Buffers Bool) => m) 6 9 0 false
    (fun _ => 7) (fun _ => true) 1500 (List.replicate 1500 3) (List.replicate 1500 true)
    (by decide) (by decide) (by decide)

/-! ## The defensive check of the loop over the full blocks -/

/-- Claim C15: for every 32-bit `N` and every loop counter `i < N / 1024`, the products
`i * 1024` and `(i + 1) * 1024` do not wrap around in 32-bit arithmetic and
`(i + 1) * 1024 ≤ N`, so the test `end_index > num_samples` is false and the iteration goes
on to the call of the FFT routine and to counter `i + 1`: the `break` is never taken. -/
theorem defensive_check_unreachable {α : Type} (fft : Kernel α) (N i fuel : Nat)
    (st : RunState α) (hN : N < 2 ^ 32) (hi : i < N / 1024) :
    i * 1024 < 2 ^ 32 ∧ (i + 1) * 1024 < 2 ^ 32 ∧
    wrap32 (i * BLOCK_SIZE) = i * 1024 ∧ wrap32 ((i + 1) * BLOCK_SIZE) = (i + 1) * 1024 ∧
    (i + 1) * 1024 ≤ N ∧ ¬ (wrap32 ((i + 1) * BLOCK_SIZE) > N) ∧
    fullBlockLoop fft BLOCK_SIZE N (N / BLOCK_SIZE) (fuel + 1) i st
      = fullBlockLoop fft BLOCK_SIZE N (N / BLOCK_SIZE) fuel (i + 1)
          (invoke fft (i * 1024) 1024 st) := by
  have hle : (i + 1) * 1024 ≤ N := by omega
  have h1 : wrap32 ((i + 1) * BLOCK_SIZE) = (i + 1) * 1024 :=
    wrap32_of_lt (by unfold BLOCK_SIZE; omega)
  have h0 : wrap32 (i * BLOCK_SIZE) = i * 1024 :=
    wrap32_of_lt (by unfold BLOCK_SIZE; omega)
  have h2 : wrap32 (i + 1) = i + 1 := wrap32_of_lt (by omega)
  have hnot : ¬ (i + 1) * 1024 > N := by omega
  have hlt : i < N / BLOCK_SIZE := hi
  refine ⟨by omega, by omega, h0, h1, hle, by rw [h1]; exact hnot, ?_⟩
  rw [fullBlockLoop]
  simp only [hlt, if_true, h1, h0, h2, hnot, if_false]
  rfl

/-- Claim C15 at `N = 4294967295`, the largest 32-bit count, and the last counter
`i = 4194302`. -/
theorem defensive_check_unreachable_witness :
    4194302 * 1024 < 2 ^ 32 ∧ (4194302 + 1) * 1024 < 2 ^ 32 ∧
    wrap32 (4194302 * BLOCK_SIZE) = 4194302 * 1024 ∧
    wrap32 ((4194302 + 1) * BLOCK_SIZE) = (4194302 + 1) * 1024 ∧
    (4194302 + 1) * 1024 ≤ 4294967295 ∧ ¬ (wrap32 ((4194302 + 1) * BLOCK_SIZE) > 4294967295) ∧
    fullBlockLoop sampleKernel BLOCK_SIZE 4294967295 (4294967295 / BLOCK_SIZE) (0 + 1) 4194302
        (initState 0 (fun _ => 7) 4294967295 (List.replicate 4294967295 3))
      = fullBlockLoop sampleKernel BLOCK_SIZE 4294967295 (4294967295 / BLOCK_SIZE) 0
          (4194302 + 1) (invoke sampleKernel (4194302 * 1024) 1024
            (initState 0 (fun _ => 7) 4294967295 (List.replicate 4294967295 3))) :=
  defensive_check_unreachable sampleKernel 4294967295 4194302 0
    (initState 0 (fun _ => 7) 4294967295 (List.replicate 4294967295 3)) (by decide) (by decide)

/-! ## Cost of the power-of-four search -/

theorem powerOf4Values_from (R : Nat) (hR : R < 2 ^ 30) :
    ∀ (fuel k : Nat), 4 ^ k ≤ R → R < 4 ^ (k + fuel) →
      powerOf4Values R fuel (4 ^ k)
        = some ((List.range (Nat.log 4 R + 1 - k)).map (fun j => 4 ^ (k + j))) := by
  intro fuel
  induction fuel with
  | zero =>
    intro k hk hlt
    simp only [Nat.add_zero] at hlt
    omega
  | succ f ih =>
    intro k hk hlt
    have hpow : 4 ^ (k + 1) = 4 ^ k * 4 := Nat.pow_succ 4 k
    have hw : wrap32 (4 ^ k * 4) = 4 ^ k * 4 := wrap32_of_lt (by omega)
    rw [powerOf4Values, hw]
    by_cases hc : 4 ^ k * 4 ≤ R
    · simp only [hc, if_true]
      rw [← hpow, ih (k + 1) (by omega) (by rw [Nat.add_right_comm]; exact hlt)]
      have hlog : k + 1 ≤ Nat.log 4 R := Nat.le_log_of_pow_le (by decide) (by omega)
      have hlen : Nat.log 4 R + 1 - k = (Nat.log 4 R + 1 - (k + 1)) + 1 := by omega
      rw [hlen, List.range_succ_eq_map, Option.map_some', List.map_cons, List.map_map]
      simp only [Nat.add_zero]
      congr 2
      apply List.map_congr_left
      intro j _
      simp [Function.comp, Nat.add_assoc, Nat.add_comm 1 j]
    · simp only [hc, if_false]
      have hlog : Nat.log 4 R = k :=
        Nat.log_eq_of_pow_le_of_lt_pow hk (by omega)
      have hone : k + 1 - k = 1 := by omega
      rw [hlog, hone]
      rfl

theorem powerOf4Values_eq (R fuel : Nat) (hR0 : 0 < R) (hR : R < 2 ^ 30) (hf : R < 4 ^ fuel) :
    powerOf4Values R fuel 1 = some ((List.range (Nat.log 4 R + 1)).map (fun j => 4 ^ j)) := by
  have h := powerOf4Values_from R hR fuel 0 (by simpa using hR0) (by simpa using hf)
  simpa using h

/-- Claim C16: for `1 ≤ R ≤ 1023` the power-of-four search ends within five evaluations of
its condition, that is after at most four iterations of its body; every product
`power_of_4 * 4` it computes is below `2 ^ 32`, so none wraps around; and the value `P` it
leaves is one of `1, 4, 16, 64, 256`, hence at most `256 = 1024 / 4`. -/
theorem search_loop_cost (R fuel : Nat) (hR0 : 1 ≤ R) (hR : R ≤ 1023) (hf : 5 ≤ fuel) :
    ∃ P vs, powerOf4Loop R fuel 1 = some P ∧ powerOf4Values R fuel 1 = some vs ∧
      vs.getLast? = some P ∧ vs.length - 1 ≤ 4 ∧
      (∀ p ∈ vs, p * 4 < 2 ^ 32 ∧ wrap32 (p * 4) = p * 4) ∧
      (P = 1 ∨ P = 4 ∨ P = 16 ∨ P = 64 ∨ P = 256) ∧ P ≤ 256 ∧ 256 = BLOCK_SIZE / 4 := by
  have h4 : R < 4 ^ fuel := by
    have h := pow4_fuel hf
    unfold BLOCK_SIZE at h
    omega
  have hlog : Nat.log 4 R ≤ 4 := log4_le_four hR0 (by omega)
  refine ⟨_, _, powerOf4Loop_eq R fuel hR0 (by omega) h4,
    powerOf4Values_eq R fuel hR0 (by omega) h4, ?_, ?_, ?_, ?_, pow4_le_256 hlog, by decide⟩
  · rw [List.range_succ, List.map_append, List.map_singleton, List.getLast?_concat]
  · rw [List.length_map, List.length_range]
    omega
  · intro p hp
    rw [List.mem_map] at hp
    obtain ⟨j, hj, rfl⟩ := hp
    have hj4 : j ≤ 4 := by
      have := List.mem_range.mp hj
      omega
    have h256 := pow4_le_256 hj4
    exact ⟨by omega, wrap32_of_lt (by omega)⟩
  · generalize Nat.log 4 R = m at hlog
    interval_cases m <;> simp

/-- Claim C16 at `R = 1023`: the values visited are `1, 4, 16, 64, 256`. -/
theorem search_loop_cost_witness :
    (powerOf4Values 1023 5 1 = some [1, 4, 16, 64, 256] ∧ powerOf4Loop 1023 4 1 = none) ∧
    ∃ P vs, powerOf4Loop 1023 5 1 = some P ∧ powerOf4Values 1023 5 1 = some vs ∧
      vs.getLast? = some P ∧ vs.length - 1 ≤ 4 ∧
      (∀ p ∈ vs, p * 4 < 2 ^ 32 ∧ wrap32 (p * 4) = p * 4) ∧
      (P = 1 ∨ P = 4 ∨ P = 16 ∨ P = 64 ∨ P = 256) ∧ P ≤ 256 ∧ 256 = BLOCK_SIZE / 4 :=
  ⟨⟨by decide, by decide⟩,
    search_loop_cost 1023 5 (by decide) (by decide) (by decide)⟩

/-! ## Number of samples left as they were -/

theorem fullCalls_mem_of_lt (B n i : Nat) (h : i < n) : (i * B, B) ∈ fullCalls B n := by
  unfold fullCalls
  rw [List.mem_map]
  exact ⟨i, List.mem_range.mpr h, rfl⟩

/-- Claim C17: when `R = N % 1024 > 0`, with `P` the length of the call for the remaining
samples, the indices below `N` that no call covers are exactly those from `N - R + P` on, so
`R - P` samples are left as they were; `R - P ≤ 3 * P - 1`, `4 * (R - P) < 3 * R`, and
`R - P ≤ 767`, which is reached for `R = 1023`, where `P = 256`. -/
theorem untransformed_tail_size {α : Type} (fft : Kernel α) (fuel : Nat) (zero : α)
    (junk : Nat → α) (N : Nat) (samples : List α) (hN : N < 2 ^ 32) (hR : 0 < N % 1024)
    (hf : N / 1024 + 5 ≤ fuel) :
    ∃ st P, main_run fft fuel zero junk N samples = some st ∧
      st.calls.getLast? = some (N - N % 1024, P) ∧
      (∀ j, j < N → ((∀ c ∈ st.calls, j < c.1 ∨ c.1 + c.2 ≤ j) ↔ N - N % 1024 + P ≤ j)) ∧
      N - (N - N % 1024 + P) = N % 1024 - P ∧ P ≤ N % 1024 ∧
      N % 1024 - P ≤ 3 * P - 1 ∧ 4 * (N % 1024 - P) < 3 * (N % 1024) ∧
      N % 1024 - P ≤ 767 ∧
      (powerOf4Loop 1023 fuel 1 = some 256 ∧ 1023 - 256 = 767) := by
  obtain ⟨st, hst, hcalls, _⟩ := main_run_some fft fuel zero junk N samples hN hf
  have hrc : remCalls BLOCK_SIZE N = [(N - N % 1024, 4 ^ Nat.log 4 (N % 1024))] :=
    remCalls_of_pos hR
  have hmod : N % 1024 ≤ N := Nat.mod_le N 1024
  have hlt : N % 1024 < 1024 := Nat.mod_lt N (by decide)
  have hPle : 4 ^ Nat.log 4 (N % 1024) ≤ N % 1024 := pow4_log_le hR
  have hPgt : N % 1024 < 4 * 4 ^ Nat.log 4 (N % 1024) := lt_four_mul_pow4_log (N % 1024)
  have hsub := sub_mod_eq N 1024
  have h5 : 5 ≤ fuel := Nat.le_trans (Nat.le_add_left 5 _) hf
  have h4 : 1023 < 4 ^ fuel := by
    have h := pow4_fuel h5
    unfold BLOCK_SIZE at h
    omega
  have h1023 : powerOf4Loop 1023 fuel 1 = some 256 := by
    rw [powerOf4Loop_eq 1023 fuel (by decide) (by decide) h4]
    have hl : Nat.log 4 1023 = 4 :=
      Nat.log_eq_of_pow_le_of_lt_pow (by decide) (by decide)
    rw [hl]
    rfl
  refine ⟨st, 4 ^ Nat.log 4 (N % 1024), hst, ?_, ?_, by omega, hPle, by omega, by omega, ?_,
    h1023, by decide⟩
  · rw [hcalls, hrc, List.getLast?_concat]
  · intro j hj
    rw [hcalls, hrc]
    constructor
    · intro h
      by_cases hjq : j < N / 1024 * 1024
      · have hi : j / 1024 < N / BLOCK_SIZE := by
          show j / 1024 < N / 1024
          omega
        have hmem := fullCalls_mem_of_lt BLOCK_SIZE (N / BLOCK_SIZE) (j / 1024) hi
        have hc := h _ (List.mem_append_left _ hmem)
        have hc2 : j < j / 1024 * 1024 ∨ j / 1024 * 1024 + 1024 ≤ j := hc
        omega
      · have hc := h (N - N % 1024, 4 ^ Nat.log 4 (N % 1024))
          (List.mem_append_right _ (List.mem_singleton.mpr rfl))
        have hc2 : j < N - N % 1024 ∨ N - N % 1024 + 4 ^ Nat.log 4 (N % 1024) ≤ j := hc
        omega
    · intro h c hc
      right
      rw [List.mem_append] at hc
      rcases hc with hc | hc
      · obtain ⟨i, hi, rfl⟩ := mem_fullCalls hc
        have h1 : (i + 1) * 1024 ≤ N / 1024 * 1024 := Nat.mul_le_mul_right 1024 hi
        show i * 1024 + 1024 ≤ j
        omega
      · rw [List.mem_singleton] at hc
        subst hc
        exact h
  · have hlog : Nat.log 4 (N % 1024) ≤ 4 := log4_le_four hR hlt
    generalize Nat.log 4 (N % 1024) = m at hlog hPle hPgt
    interval_cases m <;> omega

/-- Claim C17 at `N = 1023`: the call is `(0, 256)` and `767` samples are left. -/
theorem untransformed_tail_size_witness :
    (Option.map (fun st => st.calls) (main_run sampleKernel 5 0 (fun _ => 7) 1023 (List.replicate 1023 3))
      = some [(0, 256)] ∧ 1023 % 1024 - 256 = 767) ∧
    ∃ st P, main_run sampleKernel 5 0 (fun _ => 7) 1023 (List.replicate 1023 3) = some st ∧
      st.calls.getLast? = some (1023 - 1023 % 1024, P) ∧
      (∀ j, j < 1023 →
        ((∀ c ∈ st.calls, j < c.1 ∨ c.1 + c.2 ≤ j) ↔ 1023 - 1023 % 1024 + P ≤ j)) ∧
      1023 - (1023 - 1023 % 1024 + P) = 1023 % 1024 - P ∧ P ≤ 1023 % 1024 ∧
      1023 % 1024 - P ≤ 3 * P - 1 ∧ 4 * (1023 % 1024 - P) < 3 * (1023 % 1024) ∧
      1023 % 1024 - P ≤ 767 ∧
      (powerOf4Loop 1023 5 1 = some 256 ∧ 1023 - 256 = 767) :=
  ⟨⟨by decide, by decide⟩,
    untransformed_tail_size sampleKernel 5 0 (fun _ => 7) 1023 (List.replicate 1023 3)
      (by decide) (by decide) (by decide)⟩

end Rad2CplxFft
